import Mathlib

/-!
# Verification of `basics/main.go`: `SafeCounter` and `longOperation`

The development embeds two pieces of the program:

* `SafeCounter` (a mutex and a `map[string]int`) with its methods `Inc` and `Value`;
* `longOperation`, the polling loop that stops on `ctx.Done()` or after its
  counter exceeds 3.

Go's `int` is a 64-bit two's-complement integer on the 64-bit targets; its
arithmetic wraps around silently.  Map values are modelled as `Int` together with
the wrap-around function `wrapInt`.
-/

namespace Basics

/-! ## Machine integers -/

/-- Reduce an integer to the range of Go's 64-bit `int` (two's complement wrap-around). -/
def wrapInt (x : Int) : Int := (x + 2 ^ 63) % 2 ^ 64 - 2 ^ 63

/-- Membership in the range of Go's 64-bit `int`. -/
def inIntRange (x : Int) : Prop := -(2 ^ 63) ≤ x ∧ x < 2 ^ 63

/-! ## Run-time failures of a single sequential call -/

/-- The ways a call can fail to complete.
`nilMapWrite` is the run-time panic "assignment to entry in nil map";
`lockBlocked` is `Lock` on a mutex that is already held (the caller waits; with
no other goroutine to release it the call never returns);
`unlockOfUnlocked` is the fatal error "sync: unlock of unlocked mutex". -/
inductive Fault where
  | nilMapWrite
  | lockBlocked
  | unlockOfUnlocked
deriving DecidableEq, Repr

/-! ## `sync.Mutex` -/

/-- State of a `sync.Mutex`; the zero value is an unlocked mutex. -/
structure Mutex where
  locked : Bool
deriving DecidableEq, Repr

/-- The method `(*Mutex).Lock`. -/
def Mutex.Lock (m : Mutex) : Except Fault Mutex :=
  if m.locked then .error .lockBlocked else .ok { locked := true }

/-- The method `(*Mutex).Unlock`. -/
def Mutex.Unlock (m : Mutex) : Except Fault Mutex :=
  if m.locked then .ok { locked := false } else .error .unlockOfUnlocked

/-! ## `map[string]int` -/

/-- An initialised Go map from `string` to `int`: a key is absent (`none`) or bound. -/
abbrev GoMap := String → Option Int

/-- The map produced by `make(map[string]int)`. -/
def GoMap.empty : GoMap := fun _ => none

/-- The index expression `m[key]` on a possibly nil map (`none` is the nil map):
an absent key, and any key of a nil map, reads as the zero value. -/
def mapIndex (m : Option GoMap) (key : String) : Int :=
  match m with
  | none => 0
  | some f => (f key).getD 0

/-- The assignment `m[key] = val` on a possibly nil map: writing to a nil map panics. -/
def mapAssign (m : Option GoMap) (key : String) (val : Int) : Except Fault (Option GoMap) :=
  match m with
  | none => .error .nilMapWrite
  | some f => .ok (some (fun k => if k = key then some val else f k))

/-- Presence of a key, as reported by the comma-ok form `_, ok := m[key]`. -/
def mapHas (m : Option GoMap) (key : String) : Bool :=
  match m with
  | none => false
  | some f => (f key).isSome

/-! ## `SafeCounter` -/

/-- The struct `SafeCounter`: a mutex `mu` and the map `v` (`none` when `v` is nil). -/
structure SafeCounter where
  mu : Mutex
  v : Option GoMap

/-- The composite literal `SafeCounter{v: make(map[string]int)}` used by `main`. -/
def SafeCounter.fresh : SafeCounter := { mu := { locked := false }, v := some GoMap.empty }

/-- The zero value `SafeCounter{}`: unlocked mutex, nil map. -/
def SafeCounter.zero : SafeCounter := { mu := { locked := false }, v := none }

/-- The method `Inc`: lock, `c.v[key]++`, unlock.  The unlock is not deferred, so a
panic in the increment leaves no post-state to return. -/
def SafeCounter.Inc (c : SafeCounter) (key : String) : Except Fault SafeCounter :=
  match c.mu.Lock with
  | .error e => .error e
  | .ok mu1 =>
    match mapAssign c.v key (wrapInt (mapIndex c.v key + 1)) with
    | .error e => .error e
    | .ok v1 =>
      match mu1.Unlock with
      | .error e => .error e
      | .ok mu2 => .ok { mu := mu2, v := v1 }

/-- The method `Value`: lock, read `c.v[key]`, and unlock on return (deferred).
The result is the value read together with the counter after the call. -/
def SafeCounter.Value (c : SafeCounter) (key : String) : Except Fault (Int × SafeCounter) :=
  match c.mu.Lock with
  | .error e => .error e
  | .ok mu1 =>
    let r := mapIndex c.v key
    match mu1.Unlock with
    | .error e => .error e
    | .ok mu2 => .ok (r, { mu := mu2, v := c.v })

/-- A sequence of `Inc` calls taking effect one after the other, in list order. -/
def incAll : List String → SafeCounter → Except Fault SafeCounter
  | [], c => .ok c
  | k :: ks, c =>
    match c.Inc k with
    | .error e => .error e
    | .ok c1 => incAll ks c1

/-- The counter scenario of `main` for `n` calls on one key: `n` calls `Inc key`
on a fresh counter, in some sequential order, followed by `Value key`. -/
def counterScenario (n : Nat) (key : String) : Except Fault Int :=
  match incAll (List.replicate n key) SafeCounter.fresh with
  | .error e => .error e
  | .ok c =>
    match c.Value key with
    | .error e => .error e
    | .ok (r, _) => .ok r

/-- A counter whose mutex is free and whose map is initialised. -/
def SafeCounter.Ready (c : SafeCounter) : Prop :=
  c.mu.locked = false ∧ c.v.isSome = true

/-! ## `longOperation` -/

/-- What `longOperation` does that an observer can see, in program order.
`println s` is `fmt.Println(s)`, `print s` is `fmt.Print(s)`, `sleep` is
`time.Sleep(time.Second)` (one unit of work), and `poll done` is one execution of
the `select` statement, with `done = true` when the case `<-ctx.Done()` was ready
and `done = false` when the `default` branch ran. -/
inductive Event where
  | println (s : String)
  | print (s : String)
  | sleep
  | poll (done : Bool)
deriving DecidableEq, Repr

/-- The line printed on entry. -/
def Event.starting : Event := .println "starting long operation"

/-- The line printed by the deferred function on return. -/
def Event.exiting : Event := .println "exiting long operation"

/-- The terminal report of the cancellation branch. -/
def Event.halted : Event := .println "operation halted"

/-- The terminal report of the limit branch. -/
def Event.complete : Event := .println "long operation complete"

/-- The step marker printed after each unit of work. -/
def Event.step : Event := .print "."

/-- The `for { select { ... } }` loop of `longOperation`.
`ctxDone i` tells whether `ctx.Done()` is ready at the `i`-th execution of the
`select` (counting from 0); `fuel` bounds the number of iterations, and `none`
means the bound was hit before the loop returned.  The result is the list of
events from the current iteration to the `return`. -/
def loop (ctxDone : Nat → Bool) : Nat → Nat → Int → Option (List Event)
  | 0, _, _ => none
  | fuel + 1, i, counter =>
    if ctxDone i then
      some [.poll true, .halted]
    else
      let counter := wrapInt (counter + 1)
      if counter > 3 then
        some [.poll false, .complete]
      else
        (loop ctxDone fuel (i + 1) counter).map
          (fun rest => .poll false :: .sleep :: .step :: rest)

/-- The function `longOperation`: the entry line, the loop started with
`counter := 0`, and the deferred exit line. -/
def longOperation (ctxDone : Nat → Bool) (fuel : Nat) : Option (List Event) :=
  (loop ctxDone fuel 0 0).map (fun body => .starting :: (body ++ [.exiting]))

/-- The loop with the iteration steps in the order the specification words them:
signal check, one unit of work, increment, limit check. -/
def specOrderLoop (ctxDone : Nat → Bool) : Nat → Nat → Int → Option (List Event)
  | 0, _, _ => none
  | fuel + 1, i, counter =>
    if ctxDone i then
      some [.poll true, .halted]
    else
      let counter := wrapInt (counter + 1)
      if counter > 3 then
        some [.poll false, .sleep, .step, .complete]
      else
        (specOrderLoop ctxDone fuel (i + 1) counter).map
          (fun rest => .poll false :: .sleep :: .step :: rest)

/-! ### Vocabulary for statements about traces -/

/-- The events of `n` iterations that each did one unit of work. -/
def workRounds : Nat → List Event
  | 0 => []
  | n + 1 => .poll false :: .sleep :: .step :: workRounds n

/-- Number of consecutive inactive observations starting at check `i`, looking at
no more than `n` checks. -/
def leadingInactive (ctxDone : Nat → Bool) : Nat → Nat → Nat
  | _, 0 => 0
  | i, n + 1 => if ctxDone i then 0 else 1 + leadingInactive ctxDone (i + 1) n

/-- The events of the loop as a function of the first four observations of the
signal: one round of work per leading inactive observation, up to three, and then
the terminal report. -/
def loopTrace (ctxDone : Nat → Bool) : List Event :=
  workRounds (min 3 (leadingInactive ctxDone 0 4)) ++
    (if leadingInactive ctxDone 0 4 < 4 then [.poll true, .halted]
     else [.poll false, .complete])

/-- Number of units of work in a trace. -/
def unitsOfWork (tr : List Event) : Nat := tr.count .sleep

/-- Number of step markers in a trace. -/
def stepMarkers (tr : List Event) : Nat := tr.count .step

/-- Number of cancellation checks in a trace. -/
def checks (tr : List Event) : Nat := tr.count (.poll true) + tr.count (.poll false)

/-- Number of checks that saw the signal inactive before the first check that saw
it active. -/
def inactiveBeforeActive (tr : List Event) : Nat :=
  (tr.takeWhile (fun e => e != .poll true)).count (.poll false)

/-- Every check that saw the signal inactive is immediately followed by a unit of
work. -/
def workAfterEveryInactiveCheck : List Event → Bool
  | [] => true
  | .poll false :: rest =>
    (match rest with
      | .sleep :: _ => true
      | _ => false) && workAfterEveryInactiveCheck rest
  | _ :: rest => workAfterEveryInactiveCheck rest

/-- A cancellation signal that is set at most once and never reset. -/
def SetOnce (ctxDone : Nat → Bool) : Prop :=
  ∀ i j, i ≤ j → ctxDone i = true → ctxDone j = true

/-! ### Sample inputs -/

/-- A counter, as `SafeCounter{v: map[string]int{"k": math.MaxInt64}}`, whose key
`"k"` holds the largest `int`. -/
def maxedCounter : SafeCounter :=
  { mu := { locked := false },
    v := some (fun k => if k = "k" then some (2 ^ 63 - 1) else none) }

/-- A counter, as `SafeCounter{v: map[string]int{"b": 7}}`. -/
def sampleCounter : SafeCounter :=
  { mu := { locked := false },
    v := some (fun k => if k = "b" then some 7 else none) }

/-- The cancellation signal that is never active. -/
def neverDone : Nat → Bool := fun _ => false

/-- The cancellation signal that becomes active at check `n` and stays active. -/
def doneFrom (n : Nat) : Nat → Bool := fun i => decide (n ≤ i)


/-! ## Arithmetic of `wrapInt` -/

theorem wrapInt_of_inIntRange (x : Int) (h : inIntRange x) : wrapInt x = x := by
  unfold inIntRange at h
  unfold wrapInt
  norm_num at h ⊢
  omega

theorem wrapInt_inIntRange (x : Int) : inIntRange (wrapInt x) := by
  unfold inIntRange wrapInt
  norm_num
  omega

theorem wrapInt_add_wrapInt (a b : Int) : wrapInt (wrapInt a + b) = wrapInt (a + b) := by
  unfold wrapInt
  norm_num
  omega

/-! ## `SafeCounter`: single calls -/

theorem Inc_of_ready (c : SafeCounter) (key : String) (f : GoMap)
    (hmu : c.mu.locked = false) (hv : c.v = some f) :
    c.Inc key = .ok { mu := { locked := false },
                      v := some (fun k => if k = key then some (wrapInt ((f key).getD 0 + 1))
                                          else f k) } := by
  simp [SafeCounter.Inc, Mutex.Lock, Mutex.Unlock, mapAssign, mapIndex, hmu, hv]

theorem Inc_nil (c : SafeCounter) (key : String)
    (hmu : c.mu.locked = false) (hv : c.v = none) :
    c.Inc key = .error .nilMapWrite := by
  simp [SafeCounter.Inc, Mutex.Lock, mapAssign, hmu, hv]

theorem Inc_locked (c : SafeCounter) (key : String) (hmu : c.mu.locked = true) :
    c.Inc key = .error .lockBlocked := by
  simp [SafeCounter.Inc, Mutex.Lock, hmu]

theorem Value_of_unlocked (c : SafeCounter) (key : String) (hmu : c.mu.locked = false) :
    c.Value key = .ok (mapIndex c.v key, c) := by
  obtain ⟨⟨l⟩, v⟩ := c
  simp only at hmu
  subst hmu
  simp [SafeCounter.Value, Mutex.Lock, Mutex.Unlock]

theorem Value_locked (c : SafeCounter) (key : String) (hmu : c.mu.locked = true) :
    c.Value key = .error .lockBlocked := by
  simp [SafeCounter.Value, Mutex.Lock, hmu]

/-- A successful `Inc` was started on a ready counter and ends in the state that
differs only at `key`. -/
theorem Inc_ok_inv (c c1 : SafeCounter) (key : String) (h : c.Inc key = .ok c1) :
    ∃ f, c.mu.locked = false ∧ c.v = some f ∧
      c1 = { mu := { locked := false },
             v := some (fun k => if k = key then some (wrapInt ((f key).getD 0 + 1))
                                 else f k) } := by
  cases hmu : c.mu.locked with
  | true => rw [Inc_locked c key hmu] at h; cases h
  | false =>
    cases hv : c.v with
    | none => rw [Inc_nil c key hmu hv] at h; cases h
    | some f =>
      rw [Inc_of_ready c key f hmu hv] at h
      injection h with h
      exact ⟨f, rfl, rfl, h.symm⟩

/-! ## `SafeCounter`: sequences of calls -/

theorem incAll_ready (ks : List String) :
    ∀ c : SafeCounter, c.Ready →
      ∃ c1, incAll ks c = .ok c1 ∧ c1.Ready ∧
        ∀ k, k ∉ ks → mapIndex c1.v k = mapIndex c.v k ∧ mapHas c1.v k = mapHas c.v k := by
  induction ks with
  | nil => intro c hc; exact ⟨c, rfl, hc, fun k _ => ⟨rfl, rfl⟩⟩
  | cons a ks ih =>
    intro c hc
    obtain ⟨hmu, hv⟩ := hc
    obtain ⟨f, hf⟩ := Option.isSome_iff_exists.mp hv
    have hInc := Inc_of_ready c a f hmu hf
    obtain ⟨c1, h1, hr1, hfr⟩ := ih
      { mu := { locked := false },
        v := some (fun k => if k = a then some (wrapInt ((f a).getD 0 + 1)) else f k) }
      ⟨rfl, rfl⟩
    refine ⟨c1, ?_, hr1, ?_⟩
    · simp only [incAll, hInc]; exact h1
    · intro k hk
      have hka : k ≠ a := fun h => hk (h ▸ List.mem_cons_self _ _)
      have hks : k ∉ ks := fun h => hk (List.mem_cons_of_mem _ h)
      obtain ⟨e1, e2⟩ := hfr k hks
      rw [e1, e2, hf]
      simp [mapIndex, mapHas, hka]

theorem incAll_replicate (key : String) (n : Nat) :
    ∀ c : SafeCounter, c.Ready → inIntRange (mapIndex c.v key) →
      ∃ c1, incAll (List.replicate n key) c = .ok c1 ∧ c1.Ready ∧
        mapIndex c1.v key = wrapInt (mapIndex c.v key + n) := by
  induction n with
  | zero =>
    intro c hc hr
    exact ⟨c, rfl, hc, by simpa using (wrapInt_of_inIntRange _ hr).symm⟩
  | succ n ih =>
    intro c hc hr
    obtain ⟨hmu, hv⟩ := hc
    obtain ⟨f, hf⟩ := Option.isSome_iff_exists.mp hv
    have hInc := Inc_of_ready c key f hmu hf
    obtain ⟨c1, h1, hr1, hval⟩ := ih
      { mu := { locked := false },
        v := some (fun k => if k = key then some (wrapInt ((f key).getD 0 + 1)) else f k) }
      ⟨rfl, rfl⟩ (by simpa [mapIndex] using wrapInt_inIntRange _)
    refine ⟨c1, ?_, hr1, ?_⟩
    · simp only [List.replicate, incAll, hInc]; exact h1
    · rw [hval, hf]
      simp only [mapIndex, if_true, Option.getD_some]
      rw [wrapInt_add_wrapInt]
      congr 1
      push_cast
      ring

theorem counterScenario_eq (n : Nat) (key : String) :
    counterScenario n key = .ok (wrapInt n) := by
  obtain ⟨c1, h1, hr1, hval⟩ := incAll_replicate key n SafeCounter.fresh ⟨rfl, rfl⟩
    (by simp [SafeCounter.fresh, GoMap.empty, mapIndex, inIntRange])
  have hV := Value_of_unlocked c1 key hr1.1
  simp only [counterScenario, h1, hV, hval]
  simp [SafeCounter.fresh, GoMap.empty, mapIndex]

/-! ## `SafeCounter`: the claims -/

/-- C1 (as stated, refuted): after `2 ^ 63` calls `Inc "somekey"` on a fresh counter
the 64-bit count has wrapped around, and `Value "somekey"` returns `-2 ^ 63`
instead of the number of calls. -/
theorem counter_exact_count_overflow :
    counterScenario (2 ^ 63) "somekey" = .ok (-(2 ^ 63)) ∧
    counterScenario (2 ^ 63) "somekey" ≠ .ok (((2 ^ 63 : Nat) : Int)) := by
  have h : wrapInt (((2 ^ 63 : Nat) : Int)) = -(2 ^ 63) := by
    unfold wrapInt; norm_num
  rw [counterScenario_eq, h]
  refine ⟨rfl, ?_⟩
  intro hcontra
  injection hcontra with hcontra
  norm_num at hcontra

/-- C1 (amended): for every `N < 2 ^ 63` and every key `k`, `N` calls `Inc k` taking
effect one after the other on a fresh counter all complete, and `Value k`
afterwards returns exactly `N`. -/
theorem counter_exact_count (N : Nat) (k : String) (hN : N < 2 ^ 63) :
    ∃ c1, incAll (List.replicate N k) SafeCounter.fresh = .ok c1 ∧
      c1.Value k = .ok ((N : Int), c1) ∧
      counterScenario N k = .ok (N : Int) := by
  have hw : wrapInt (N : Int) = N := by
    apply wrapInt_of_inIntRange
    unfold inIntRange
    constructor
    · have : (0 : Int) ≤ N := Int.natCast_nonneg N
      norm_num
      omega
    · exact_mod_cast hN
  obtain ⟨c1, h1, hr1, hval⟩ := incAll_replicate k N SafeCounter.fresh ⟨rfl, rfl⟩
    (by simp [SafeCounter.fresh, GoMap.empty, mapIndex, inIntRange])
  have h0 : mapIndex SafeCounter.fresh.v k = 0 := by
    simp [SafeCounter.fresh, GoMap.empty, mapIndex]
  rw [h0, zero_add, hw] at hval
  refine ⟨c1, h1, ?_, ?_⟩
  · rw [Value_of_unlocked c1 k hr1.1, hval]
  · rw [counterScenario_eq, hw]

/-- Witness for C1: the scenario of `main`, 1000 calls on `"somekey"`. -/
theorem counter_exact_count_witness :
    1000 < 2 ^ 63 ∧
    ∃ c1, incAll (List.replicate 1000 "somekey") SafeCounter.fresh = .ok c1 ∧
      c1.Value "somekey" = .ok (((1000 : Nat) : Int), c1) ∧
      counterScenario 1000 "somekey" = .ok ((1000 : Nat) : Int) :=
  ⟨by norm_num, counter_exact_count 1000 "somekey" (by norm_num)⟩

/-- C2 (as stated, refuted): on a counter whose key `"k"` holds the largest `int`,
`Inc "k"` makes `Value "k"` return `-2 ^ 63`, which is not the previous value
plus 1. -/
theorem Inc_adds_one_overflow :
    maxedCounter.Ready ∧ mapHas maxedCounter.v "k" = true ∧
    maxedCounter.Value "k" = .ok (2 ^ 63 - 1, maxedCounter) ∧
    ∃ c1, maxedCounter.Inc "k" = .ok c1 ∧ c1.Value "k" = .ok (-(2 ^ 63), c1) ∧
      (-(2 ^ 63) : Int) ≠ (2 ^ 63 - 1) + 1 := by
  refine ⟨⟨rfl, rfl⟩, rfl, ?_, ?_⟩
  · rw [Value_of_unlocked _ _ rfl]; rfl
  · refine ⟨_, Inc_of_ready maxedCounter "k" _ rfl rfl, ?_, by norm_num⟩
    rw [Value_of_unlocked _ _ rfl]
    simp [mapIndex, wrapInt]

/-- C2 (amended): on a counter with a free mutex and an initialised map whose count
for `k` is an `int` below the largest one, `Inc k` completes and afterwards
`Value k` returns 1 if `k` was absent and the previous `Value k` plus 1 otherwise. -/
theorem Inc_adds_one (c : SafeCounter) (k : String) (hready : c.Ready)
    (hrange : inIntRange (mapIndex c.v k)) (hmax : mapIndex c.v k < 2 ^ 63 - 1) :
    ∃ prev c1 r, c.Value k = .ok (prev, c) ∧ c.Inc k = .ok c1 ∧ c1.Value k = .ok (r, c1) ∧
      (mapHas c.v k = false → r = 1) ∧ (mapHas c.v k = true → r = prev + 1) := by
  obtain ⟨hmu, hv⟩ := hready
  obtain ⟨f, hf⟩ := Option.isSome_iff_exists.mp hv
  have hInc := Inc_of_ready c k f hmu hf
  refine ⟨mapIndex c.v k, _, _, Value_of_unlocked c k hmu, hInc,
    Value_of_unlocked _ k rfl, ?_, ?_⟩
  · intro habs
    rw [hf] at habs
    simp only [mapHas] at habs
    have hnone : f k = none := by
      cases hfk : f k with
      | none => rfl
      | some x => rw [hfk] at habs; simp at habs
    simp [mapIndex, hnone, wrapInt]
  · intro _
    have hw : wrapInt (mapIndex c.v k + 1) = mapIndex c.v k + 1 := by
      apply wrapInt_of_inIntRange
      unfold inIntRange at hrange ⊢
      constructor
      · have := hrange.1; omega
      · omega
    rw [hf] at hw ⊢
    simpa [mapIndex] using hw

/-- Witness for C2: the counter holding `"b" ↦ 7`, incremented at `"b"`. -/
theorem Inc_adds_one_witness :
    sampleCounter.Ready ∧ inIntRange (mapIndex sampleCounter.v "b") ∧
    mapIndex sampleCounter.v "b" < 2 ^ 63 - 1 ∧
    ∃ prev c1 r, sampleCounter.Value "b" = .ok (prev, sampleCounter) ∧
      sampleCounter.Inc "b" = .ok c1 ∧ c1.Value "b" = .ok (r, c1) ∧
      (mapHas sampleCounter.v "b" = false → r = 1) ∧
      (mapHas sampleCounter.v "b" = true → r = prev + 1) :=
  have h1 : sampleCounter.Ready := ⟨rfl, rfl⟩
  have h2 : inIntRange (mapIndex sampleCounter.v "b") := by
    simp [sampleCounter, mapIndex, inIntRange]
  have h3 : mapIndex sampleCounter.v "b" < 2 ^ 63 - 1 := by
    simp [sampleCounter, mapIndex]
  ⟨h1, h2, h3, Inc_adds_one sampleCounter "b" h1 h2 h3⟩

/-- C3: for every counter state and distinct keys `a` and `b`, a completed
`Inc a` leaves `Value b` unchanged and leaves the presence of `b` in the map
unchanged (absent stays absent). -/
theorem Inc_key_isolation (c c1 : SafeCounter) (a b : String) (hab : a ≠ b)
    (hInc : c.Inc a = .ok c1) :
    ∃ r, c.Value b = .ok (r, c) ∧ c1.Value b = .ok (r, c1) ∧
      mapHas c1.v b = mapHas c.v b := by
  obtain ⟨f, hmu, hf, rfl⟩ := Inc_ok_inv c c1 a hInc
  have hba : b ≠ a := fun h => hab h.symm
  refine ⟨mapIndex c.v b, Value_of_unlocked c b hmu, ?_, ?_⟩
  · rw [Value_of_unlocked _ b rfl, hf]
    simp [mapIndex, hba]
  · rw [hf]
    simp [mapHas, hba]

/-- Witness for C3: `Inc "a"` on the counter holding `"b" ↦ 7`. -/
theorem Inc_key_isolation_witness :
    "a" ≠ "b" ∧
    ∃ c1, sampleCounter.Inc "a" = .ok c1 ∧
      ∃ r, sampleCounter.Value "b" = .ok (r, sampleCounter) ∧ c1.Value "b" = .ok (r, c1) ∧
        mapHas c1.v "b" = mapHas sampleCounter.v "b" :=
  ⟨by decide, _, Inc_of_ready sampleCounter "a" _ rfl rfl,
    Inc_key_isolation sampleCounter _ "a" "b" (by decide)
      (Inc_of_ready sampleCounter "a" _ rfl rfl)⟩

/-- C4: `Value k` on a fresh counter returns 0, and it still returns 0 after any
sequence of `Inc` calls on keys other than `k`. -/
theorem Value_default_zero (k : String) (ks : List String) (hk : k ∉ ks) :
    SafeCounter.fresh.Value k = .ok (0, SafeCounter.fresh) ∧
    ∃ c1, incAll ks SafeCounter.fresh = .ok c1 ∧ c1.Value k = .ok (0, c1) ∧
      mapHas c1.v k = false := by
  have h0 : mapIndex SafeCounter.fresh.v k = 0 := by
    simp [SafeCounter.fresh, GoMap.empty, mapIndex]
  have hh : mapHas SafeCounter.fresh.v k = false := by
    simp [SafeCounter.fresh, GoMap.empty, mapHas]
  constructor
  · rw [Value_of_unlocked _ k rfl, h0]
  · obtain ⟨c1, h1, hr1, hfr⟩ := incAll_ready ks SafeCounter.fresh ⟨rfl, rfl⟩
    obtain ⟨e1, e2⟩ := hfr k hk
    refine ⟨c1, h1, ?_, ?_⟩
    · rw [Value_of_unlocked c1 k hr1.1, e1, h0]
    · rw [e2, hh]

/-- Witness for C4: `"never-touched"` after increments of `"a"`, `"b"`, `"a"`. -/
theorem Value_default_zero_witness :
    "never-touched" ∉ ["a", "b", "a"] ∧
    (SafeCounter.fresh.Value "never-touched" = .ok (0, SafeCounter.fresh) ∧
     ∃ c1, incAll ["a", "b", "a"] SafeCounter.fresh = .ok c1 ∧
       c1.Value "never-touched" = .ok (0, c1) ∧ mapHas c1.v "never-touched" = false) :=
  ⟨by decide, Value_default_zero "never-touched" ["a", "b", "a"] (by decide)⟩

/-- C9 (as stated, refuted): on the zero value `SafeCounter{}`, whose map was never
initialised, `Inc` panics with "assignment to entry in nil map". -/
theorem Inc_zero_value_panics :
    SafeCounter.zero.Inc "somekey" = .error .nilMapWrite := by
  rfl

/-- C9 (amended): on every counter whose mutex is free, `Value` completes (the zero
value included, where it returns 0), `Inc` completes when the map is initialised,
and `Inc` panics when the map is nil. -/
theorem Inc_Value_completion (c : SafeCounter) (key : String) (hmu : c.mu.locked = false) :
    c.Value key = .ok (mapIndex c.v key, c) ∧
    (c.v = none → c.Value key = .ok (0, c) ∧ c.Inc key = .error .nilMapWrite) ∧
    (c.v.isSome = true → ∃ c1, c.Inc key = .ok c1 ∧ c1.mu.locked = false ∧
      c1.v.isSome = true) := by
  refine ⟨Value_of_unlocked c key hmu, ?_, ?_⟩
  · intro hv
    refine ⟨?_, Inc_nil c key hmu hv⟩
    rw [Value_of_unlocked c key hmu, hv]
    rfl
  · intro hv
    obtain ⟨f, hf⟩ := Option.isSome_iff_exists.mp hv
    exact ⟨_, Inc_of_ready c key f hmu hf, rfl, rfl⟩

/-- Witness for C9: the fresh counter of `main`. -/
theorem Inc_Value_completion_witness :
    SafeCounter.fresh.mu.locked = false ∧
    (SafeCounter.fresh.Value "somekey"
        = .ok (mapIndex SafeCounter.fresh.v "somekey", SafeCounter.fresh) ∧
     (SafeCounter.fresh.v = none →
        SafeCounter.fresh.Value "somekey" = .ok (0, SafeCounter.fresh) ∧
        SafeCounter.fresh.Inc "somekey" = .error .nilMapWrite) ∧
     (SafeCounter.fresh.v.isSome = true →
        ∃ c1, SafeCounter.fresh.Inc "somekey" = .ok c1 ∧ c1.mu.locked = false ∧
          c1.v.isSome = true)) :=
  ⟨rfl, Inc_Value_completion SafeCounter.fresh "somekey" rfl⟩

/-! ## `longOperation`: shape of every run -/

theorem loop_eq_loopTrace (ctxDone : Nat → Bool) (fuel : Nat) (hfuel : 4 ≤ fuel) :
    loop ctxDone fuel 0 0 = some (loopTrace ctxDone) := by
  obtain ⟨k, rfl⟩ : ∃ k, fuel = k + 4 := ⟨fuel - 4, by omega⟩
  rcases h0 : ctxDone 0 with _ | _ <;> rcases h1 : ctxDone 1 with _ | _ <;>
    rcases h2 : ctxDone 2 with _ | _ <;> rcases h3 : ctxDone 3 with _ | _ <;>
    simp [loop, loopTrace, leadingInactive, workRounds, wrapInt, h0, h1, h2, h3]

theorem longOperation_eq (ctxDone : Nat → Bool) (fuel : Nat) (hfuel : 4 ≤ fuel) :
    longOperation ctxDone fuel
      = some (.starting :: (loopTrace ctxDone ++ [.exiting])) := by
  simp [longOperation, loop_eq_loopTrace ctxDone fuel hfuel]

theorem leadingInactive_le (ctxDone : Nat → Bool) (n : Nat) :
    ∀ i, leadingInactive ctxDone i n ≤ n := by
  induction n with
  | zero => intro i; simp [leadingInactive]
  | succ n ih =>
    intro i
    simp only [leadingInactive]
    split
    · omega
    · have := ih (i + 1); omega

theorem leadingInactive_spec (ctxDone : Nat → Bool) (n : Nat) :
    ∀ i, (∀ m, m < leadingInactive ctxDone i n → ctxDone (i + m) = false) ∧
      (leadingInactive ctxDone i n < n → ctxDone (i + leadingInactive ctxDone i n) = true) := by
  induction n with
  | zero => intro i; simp [leadingInactive]
  | succ n ih =>
    intro i
    simp only [leadingInactive]
    cases hi : ctxDone i with
    | true => simp [hi]
    | false =>
      obtain ⟨ih1, ih2⟩ := ih (i + 1)
      simp only [Bool.false_eq_true, if_false]
      constructor
      · intro m hm
        cases m with
        | zero => simpa using hi
        | succ m =>
          have := ih1 m (by omega)
          rw [← this]; congr 1; omega
      · intro hlt
        have := ih2 (by omega)
        rw [← this]; congr 1; omega

theorem leadingInactive_lt_of_active (ctxDone : Nat → Bool) (n : Nat)
    (hact : ∃ i, i < n ∧ ctxDone i = true) : leadingInactive ctxDone 0 n < n := by
  obtain ⟨i, hi, hd⟩ := hact
  by_contra hge
  have hle := leadingInactive_le ctxDone n 0
  have := (leadingInactive_spec ctxDone n 0).1 i (by omega)
  rw [Nat.zero_add, hd] at this
  cases this

/-! ## `longOperation`: the claims -/

/-- C5: when the signal is inactive at every check, `longOperation` returns after
exactly 3 units of work (3 sleeps, each followed by its step marker), then reports
"long operation complete" exactly once and never reports "operation halted". -/
theorem longOperation_completion_path (ctxDone : Nat → Bool) (fuel : Nat) (hfuel : 4 ≤ fuel)
    (hnever : ∀ i, ctxDone i = false) :
    ∃ tr, longOperation ctxDone fuel = some tr ∧
      tr = [.starting, .poll false, .sleep, .step, .poll false, .sleep, .step,
            .poll false, .sleep, .step, .poll false, .complete, .exiting] ∧
      unitsOfWork tr = 3 ∧ stepMarkers tr = 3 ∧
      tr.count .complete = 1 ∧ tr.count .halted = 0 := by
  have hj : leadingInactive ctxDone 0 4 = 4 := by simp [leadingInactive, hnever]
  refine ⟨_, longOperation_eq ctxDone fuel hfuel, ?_, ?_⟩
  · simp [loopTrace, hj, workRounds]
  · simp only [loopTrace, hj]
    decide

/-- Witness for C5: the signal that is never active, with just enough fuel. -/
theorem longOperation_completion_path_witness :
    4 ≤ 4 ∧ (∀ i, neverDone i = false) ∧
    ∃ tr, longOperation neverDone 4 = some tr ∧
      tr = [.starting, .poll false, .sleep, .step, .poll false, .sleep, .step,
            .poll false, .sleep, .step, .poll false, .complete, .exiting] ∧
      unitsOfWork tr = 3 ∧ stepMarkers tr = 3 ∧
      tr.count .complete = 1 ∧ tr.count .halted = 0 :=
  ⟨le_refl 4, fun _ => rfl,
    longOperation_completion_path neverDone 4 (le_refl 4) (fun _ => rfl)⟩

/-- C6: for a set-once signal that is active at one of the first four checks,
`longOperation` returns, reports "operation halted" exactly once, at the first
check `j` that observes the signal, after exactly `j` units of work; nothing but
the halted report and the exit line follows that check, "long operation complete"
is never reported, and a signal active at the start yields zero units of work. -/
theorem longOperation_halted_path (ctxDone : Nat → Bool) (fuel : Nat) (hfuel : 4 ≤ fuel)
    (_hset : SetOnce ctxDone) (hact : ∃ i, i < 4 ∧ ctxDone i = true) :
    ∃ j tr, j < 4 ∧ (∀ i, i < j → ctxDone i = false) ∧ ctxDone j = true ∧
      longOperation ctxDone fuel = some tr ∧
      tr = .starting :: (workRounds j ++ [.poll true, .halted, .exiting]) ∧
      tr.count .halted = 1 ∧ tr.count .complete = 0 ∧
      unitsOfWork tr = j ∧ stepMarkers tr = j ∧
      tr.dropWhile (fun e => e != .poll true) = [.poll true, .halted, .exiting] ∧
      (ctxDone 0 = true → unitsOfWork tr = 0) := by
  have hlt := leadingInactive_lt_of_active ctxDone 4 hact
  obtain ⟨hs1, hs2⟩ := leadingInactive_spec ctxDone 4 0
  have hfirst : ctxDone 0 = true → leadingInactive ctxDone 0 4 = 0 := by
    intro h0; simp [leadingInactive, h0]
  refine ⟨leadingInactive ctxDone 0 4, _, hlt, ?_, ?_,
    longOperation_eq ctxDone fuel hfuel, ?_⟩
  · intro i hi; simpa using hs1 i hi
  · simpa using hs2 hlt
  · simp only [loopTrace]
    generalize leadingInactive ctxDone 0 4 = j at hlt hfirst
    have hz : ctxDone 0 = true →
        unitsOfWork (Event.starting ::
          (workRounds (min 3 j) ++ (if j < 4 then [Event.poll true, Event.halted]
            else [Event.poll false, Event.complete]) ++ [Event.exiting])) = 0 := by
      intro h0; rw [hfirst h0]; decide
    refine ⟨?_, ?_, ?_, ?_, ?_, ?_, hz⟩ <;> clear hz hfirst <;>
      interval_cases j <;> decide

/-- Witness for C6: the signal that becomes active at the third check. -/
theorem longOperation_halted_path_witness :
    4 ≤ 4 ∧ SetOnce (doneFrom 2) ∧ (∃ i, i < 4 ∧ doneFrom 2 i = true) ∧
    ∃ j tr, j < 4 ∧ (∀ i, i < j → doneFrom 2 i = false) ∧ doneFrom 2 j = true ∧
      longOperation (doneFrom 2) 4 = some tr ∧
      tr = .starting :: (workRounds j ++ [.poll true, .halted, .exiting]) ∧
      tr.count .halted = 1 ∧ tr.count .complete = 0 ∧
      unitsOfWork tr = j ∧ stepMarkers tr = j ∧
      tr.dropWhile (fun e => e != .poll true) = [.poll true, .halted, .exiting] ∧
      (doneFrom 2 0 = true → unitsOfWork tr = 0) :=
  have hset : SetOnce (doneFrom 2) := by
    intro i j hij hi
    simp only [doneFrom, decide_eq_true_eq] at hi ⊢
    omega
  have hact : ∃ i, i < 4 ∧ doneFrom 2 i = true := ⟨2, by decide, by decide⟩
  ⟨le_refl 4, hset, hact, longOperation_halted_path (doneFrom 2) 4 (le_refl 4) hset hact⟩

/-- C7: for every sequence of signal observations, a run of `longOperation` returns
and reports exactly one of "operation halted" and "long operation complete", and
that report is the last event of the loop. -/
theorem longOperation_one_terminal_event (ctxDone : Nat → Bool) (fuel : Nat)
    (hfuel : 4 ≤ fuel) :
    ∃ body tr, loop ctxDone fuel 0 0 = some body ∧ longOperation ctxDone fuel = some tr ∧
      tr = .starting :: (body ++ [.exiting]) ∧
      tr.count .halted + tr.count .complete = 1 ∧
      ((body.getLast? = some .halted ∧ tr.count .halted = 1 ∧ tr.count .complete = 0) ∨
       (body.getLast? = some .complete ∧ tr.count .complete = 1 ∧ tr.count .halted = 0)) := by
  have hle := leadingInactive_le ctxDone 4 0
  refine ⟨_, _, loop_eq_loopTrace ctxDone fuel hfuel, longOperation_eq ctxDone fuel hfuel,
    rfl, ?_⟩
  simp only [loopTrace]
  generalize leadingInactive ctxDone 0 4 = j at hle
  interval_cases j <;> decide

/-- Witness for C7: the signal that first becomes active at the check following
the third unit of work. -/
theorem longOperation_one_terminal_event_witness :
    4 ≤ 4 ∧
    ∃ body tr, loop (doneFrom 3) 4 0 0 = some body ∧ longOperation (doneFrom 3) 4 = some tr ∧
      tr = .starting :: (body ++ [.exiting]) ∧
      tr.count .halted + tr.count .complete = 1 ∧
      ((body.getLast? = some .halted ∧ tr.count .halted = 1 ∧ tr.count .complete = 0) ∨
       (body.getLast? = some .complete ∧ tr.count .complete = 1 ∧ tr.count .halted = 0)) :=
  ⟨le_refl 4, longOperation_one_terminal_event (doneFrom 3) 4 (le_refl 4)⟩

/-- C8 (as stated, refuted): in the run with a signal that is never active, four
checks see the signal inactive but only three units of work are performed; the
fourth such check is followed by the completion report and no work, and the trace
differs from the one of the loop that works before it increments and tests. -/
theorem work_precedes_increment_refuted :
    ∃ tr, longOperation neverDone 4 = some tr ∧
      tr.count (.poll false) = 4 ∧ unitsOfWork tr = 3 ∧
      workAfterEveryInactiveCheck tr = false ∧
      specOrderLoop neverDone 4 0 0
        = some (workRounds 3 ++ [.poll false, .sleep, .step, .complete]) ∧
      loop neverDone 4 0 0 ≠ specOrderLoop neverDone 4 0 0 := by
  refine ⟨_, rfl, ?_, ?_, ?_, ?_, ?_⟩ <;> decide

/-- C8 (amended): on an iteration at which the signal is not active the loop first
increments its counter and tests it against 3: if the counter now exceeds 3 it
reports "long operation complete" and returns without a unit of work, otherwise it
performs one unit of work, prints the step marker and goes on to the next check.
Hence a whole run does one round of work per leading inactive check, up to three,
and a fourth inactive check is answered by the completion report alone. -/
theorem increment_precedes_work (ctxDone : Nat → Bool) (fuel i : Nat) (counter : Int)
    (hinactive : ctxDone i = false) (hfuel : 4 ≤ fuel) :
    (3 < wrapInt (counter + 1) →
      loop ctxDone (fuel + 1) i counter = some [.poll false, .complete]) ∧
    (¬ 3 < wrapInt (counter + 1) →
      loop ctxDone (fuel + 1) i counter
        = (loop ctxDone fuel (i + 1) (wrapInt (counter + 1))).map
            (fun rest => .poll false :: .sleep :: .step :: rest)) ∧
    loop ctxDone fuel 0 0 = some (loopTrace ctxDone) ∧
    (leadingInactive ctxDone 0 4 = 4 →
      loop ctxDone fuel 0 0 = some (workRounds 3 ++ [.poll false, .complete])) := by
  refine ⟨?_, ?_, loop_eq_loopTrace ctxDone fuel hfuel, ?_⟩
  · intro h; simp [loop, hinactive, h]
  · intro h; simp [loop, hinactive, h]
  · intro h
    rw [loop_eq_loopTrace ctxDone fuel hfuel]
    simp [loopTrace, h]

/-- Witness for C8: the first iteration of the run whose signal is never active. -/
theorem increment_precedes_work_witness :
    neverDone 0 = false ∧ 4 ≤ 4 ∧
    ((3 < wrapInt ((0 : Int) + 1) →
      loop neverDone (4 + 1) 0 0 = some [.poll false, .complete]) ∧
    (¬ 3 < wrapInt ((0 : Int) + 1) →
      loop neverDone (4 + 1) 0 0
        = (loop neverDone 4 (0 + 1) (wrapInt ((0 : Int) + 1))).map
            (fun rest => .poll false :: .sleep :: .step :: rest)) ∧
    loop neverDone 4 0 0 = some (loopTrace neverDone) ∧
    (leadingInactive neverDone 0 4 = 4 →
      loop neverDone 4 0 0 = some (workRounds 3 ++ [.poll false, .complete]))) :=
  ⟨rfl, le_refl 4, increment_precedes_work neverDone 4 0 0 rfl (le_refl 4)⟩

/-- C10: for every sequence of signal observations, `longOperation` returns after
at most 4 cancellation checks and at most 3 units of work, and the number of units
of work equals the minimum of 3 and the number of checks that saw the signal
inactive before the first check that saw it active. -/
theorem longOperation_bounded (ctxDone : Nat → Bool) (fuel : Nat) (hfuel : 4 ≤ fuel) :
    ∃ tr, longOperation ctxDone fuel = some tr ∧
      checks tr ≤ 4 ∧ unitsOfWork tr ≤ 3 ∧
      unitsOfWork tr = min 3 (inactiveBeforeActive tr) ∧
      inactiveBeforeActive tr = leadingInactive ctxDone 0 4 := by
  have hle := leadingInactive_le ctxDone 4 0
  refine ⟨_, longOperation_eq ctxDone fuel hfuel, ?_⟩
  simp only [loopTrace]
  generalize leadingInactive ctxDone 0 4 = j at hle
  interval_cases j <;> decide

/-- Witness for C10: the signal that becomes active at the second check. -/
theorem longOperation_bounded_witness :
    4 ≤ 4 ∧
    ∃ tr, longOperation (doneFrom 1) 4 = some tr ∧
      checks tr ≤ 4 ∧ unitsOfWork tr ≤ 3 ∧
      unitsOfWork tr = min 3 (inactiveBeforeActive tr) ∧
      inactiveBeforeActive tr = leadingInactive (doneFrom 1) 0 4 :=
  ⟨le_refl 4, longOperation_bounded (doneFrom 1) 4 (le_refl 4)⟩

end Basics
